import Mathlib

/-!
Verification of the response-chunking algorithm of the EVEFrontAIr repository.

The only algorithmic component of the repository is `split_response`
(src/main.py, lines 98-118), which splits a long text into chunks along
line boundaries so that each chunk fits a size bound.  Python strings are
modelled as lists of characters (`Str`); `text.split('\n')` is modelled by
`splitLines`, and the accumulation loop of `split_response` by `splitLoop`.
-/

set_option autoImplicit false

namespace EVEFrontAIr

/-- A Python string, modelled as its sequence of characters. -/
abbrev Str := List Char

/-- Python's `response.split('\n')`: splits on every newline character,
keeping empty pieces, so the empty string yields `[""]` and a trailing
newline yields a trailing empty piece. -/
def splitLines : Str → List Str
  | [] => [[]]
  | c :: cs =>
    if c = '\n' then [] :: splitLines cs
    else
      match splitLines cs with
      | [] => [[c]]
      | l :: ls => (c :: l) :: ls

/-- The accumulation loop of `split_response` (src/main.py lines 103-117):
for each line, if `len(current_chunk) + len(line) + 1 > chunk_size` the
current buffer is appended to `chunks` and the buffer restarts as the line;
otherwise the line is appended to the buffer, preceded by a newline when the
buffer is non-empty.  After the loop a non-empty buffer is appended. -/
def splitLoop (k : Nat) : List Str → List Str → Str → List Str
  | [], chunks, cur => if cur ≠ [] then chunks ++ [cur] else chunks
  | line :: rest, chunks, cur =>
    if cur.length + line.length + 1 > k then
      splitLoop k rest (chunks ++ [cur]) line
    else
      splitLoop k rest chunks (if cur ≠ [] then cur ++ '\n' :: line else line)

/-- `split_response` (src/main.py lines 98-118): returns `[response]` when
the text already fits the bound, otherwise runs the accumulation loop over
the lines of the text. -/
def split_response (response : Str) (chunk_size : Nat) : List Str :=
  if response.length ≤ chunk_size then [response]
  else splitLoop chunk_size (splitLines response) [] []

/-- Joining a list of strings with the newline separator
(Python's `'\n'.join`). -/
def joinSep : List Str → Str
  | [] => []
  | [x] => x
  | x :: y :: ys => x ++ '\n' :: joinSep (y :: ys)

/-- The reference greedy algorithm exactly as the spec describes it
(spec section 4.1): the size check counts one extra line-separator character
only when the current buffer is non-empty; on overflow the buffer is sealed
and restarted with just that line; a non-empty final buffer is sealed after
all lines are consumed. -/
def specLoop (k : Nat) : List Str → List Str → Str → List Str
  | [], chunks, cur => if cur ≠ [] then chunks ++ [cur] else chunks
  | line :: rest, chunks, cur =>
    if cur.length + line.length + (if cur ≠ [] then 1 else 0) > k then
      specLoop k rest (chunks ++ [cur]) line
    else
      specLoop k rest chunks (if cur ≠ [] then cur ++ '\n' :: line else line)

/-- The spec's reference chunker, run over the lines of the text. -/
def spec_chunker (text : Str) (k : Nat) : List Str :=
  specLoop k (splitLines text) [] []

/-- The amended reference greedy algorithm: identical to `specLoop` except
that the size check always counts one extra separator character, even when
the buffer is empty, matching the code's check. -/
def specLoopAmended (k : Nat) : List Str → List Str → Str → List Str
  | [], chunks, cur => if cur ≠ [] then chunks ++ [cur] else chunks
  | line :: rest, chunks, cur =>
    if cur.length + line.length + 1 > k then
      specLoopAmended k rest (chunks ++ [cur]) line
    else
      specLoopAmended k rest chunks (if cur ≠ [] then cur ++ '\n' :: line else line)

/-- The amended reference chunker. -/
def spec_chunker_amended (text : Str) (k : Nat) : List Str :=
  specLoopAmended k (splitLines text) [] []

/-! ### Basic lemmas about `splitLines` and `joinSep` -/

theorem splitLines_nil : splitLines [] = [[]] := rfl

theorem splitLines_cons_sep (cs : Str) :
    splitLines ('\n' :: cs) = [] :: splitLines cs := by
  simp [splitLines]

theorem splitLines_cons (c : Char) (cs : Str) (h : ¬ c = '\n')
    (l : Str) (ls : List Str) (hcs : splitLines cs = l :: ls) :
    splitLines (c :: cs) = (c :: l) :: ls := by
  simp [splitLines, h, hcs]

theorem splitLines_ne_nil (s : Str) : splitLines s ≠ [] := by
  induction s with
  | nil => simp [splitLines]
  | cons c cs ih =>
    by_cases h : c = '\n'
    · subst h
      rw [splitLines_cons_sep]
      simp
    · obtain ⟨l, ls, hcs⟩ := List.exists_cons_of_ne_nil ih
      rw [splitLines_cons c cs h l ls hcs]
      simp

theorem joinSep_nil : joinSep [] = [] := rfl

theorem joinSep_single (x : Str) : joinSep [x] = x := rfl

theorem joinSep_cons (x : Str) (ys : List Str) (h : ys ≠ []) :
    joinSep (x :: ys) = x ++ '\n' :: joinSep ys := by
  cases ys with
  | nil => exact absurd rfl h
  | cons y ys => rfl

theorem joinSep_concat (xs : List Str) (y : Str) (h : xs ≠ []) :
    joinSep (xs ++ [y]) = joinSep xs ++ '\n' :: y := by
  induction xs with
  | nil => exact absurd rfl h
  | cons x xs ih =>
    cases xs with
    | nil => rfl
    | cons x2 xs2 =>
      rw [List.cons_append,
        joinSep_cons x ((x2 :: xs2) ++ [y]) (by simp),
        joinSep_cons x (x2 :: xs2) (by simp),
        ih (by simp)]
      simp

theorem joinSep_splitLines (s : Str) : joinSep (splitLines s) = s := by
  induction s with
  | nil => rfl
  | cons c cs ih =>
    by_cases h : c = '\n'
    · subst h
      rw [splitLines_cons_sep, joinSep_cons _ _ (splitLines_ne_nil cs), ih]
      rfl
    · obtain ⟨l, ls, hcs⟩ := List.exists_cons_of_ne_nil (splitLines_ne_nil cs)
      rw [splitLines_cons c cs h l ls hcs]
      cases ls with
      | nil =>
        rw [joinSep_single]
        rw [hcs, joinSep_single] at ih
        rw [ih]
      | cons l2 ls2 =>
        rw [joinSep_cons _ _ (by simp)]
        rw [hcs, joinSep_cons _ _ (by simp)] at ih
        rw [List.cons_append, ih]

theorem splitLines_no_sep (s : Str) (h : '\n' ∉ s) : splitLines s = [s] := by
  induction s with
  | nil => rfl
  | cons c cs ih =>
    have hc : ¬ c = '\n' := fun he => h (by simp [he])
    have hcs : '\n' ∉ cs := fun hm => h (by simp [hm])
    rw [splitLines_cons c cs hc cs [] (ih hcs)]

theorem splitLines_length_le (s : Str) : ∀ l ∈ splitLines s, l.length ≤ s.length := by
  induction s with
  | nil =>
    intro l hl
    rw [splitLines_nil] at hl
    simp at hl
    simp [hl]
  | cons c cs ih =>
    intro l hl
    by_cases h : c = '\n'
    · subst h
      rw [splitLines_cons_sep] at hl
      rcases List.mem_cons.mp hl with h1 | h1
      · simp [h1]
      · have := ih l h1
        simp
        omega
    · obtain ⟨m, ms, hcs⟩ := List.exists_cons_of_ne_nil (splitLines_ne_nil cs)
      rw [splitLines_cons c cs h m ms hcs] at hl
      rcases List.mem_cons.mp hl with h1 | h1
      · have := ih m (by rw [hcs]; simp)
        subst h1
        simp
        omega
      · have := ih l (by rw [hcs]; exact List.mem_cons_of_mem _ h1)
        simp
        omega

/-! ### Lemmas about the accumulation loop -/

theorem splitLoop_nil (k : Nat) (chunks : List Str) (cur : Str) :
    splitLoop k [] chunks cur = if cur ≠ [] then chunks ++ [cur] else chunks := rfl

theorem splitLoop_cons (k : Nat) (line : Str) (rest chunks : List Str) (cur : Str) :
    splitLoop k (line :: rest) chunks cur =
      if cur.length + line.length + 1 > k then
        splitLoop k rest (chunks ++ [cur]) line
      else
        splitLoop k rest chunks (if cur ≠ [] then cur ++ '\n' :: line else line) := rfl

theorem splitLoop_chunks_append (k : Nat) (rest : List Str) :
    ∀ (chunks : List Str) (cur : Str),
      splitLoop k rest chunks cur = chunks ++ splitLoop k rest [] cur := by
  induction rest with
  | nil =>
    intro chunks cur
    rw [splitLoop_nil, splitLoop_nil]
    by_cases h : cur = []
    · simp [h]
    · simp [h]
  | cons line rest ih =>
    intro chunks cur
    rw [splitLoop_cons, splitLoop_cons]
    by_cases h : cur.length + line.length + 1 > k
    · rw [if_pos h, if_pos h]
      simp only [List.nil_append]
      rw [ih (chunks ++ [cur]) line, ih [cur] line, List.append_assoc]
    · rw [if_neg h, if_neg h]
      exact ih chunks _

theorem splitLoop_ne_nil (k : Nat) (rest : List Str) :
    ∀ cur : Str, cur ≠ [] → splitLoop k rest [] cur ≠ [] := by
  induction rest with
  | nil =>
    intro cur hcur
    rw [splitLoop_nil, if_pos hcur]
    simp
  | cons line rest ih =>
    intro cur hcur
    rw [splitLoop_cons]
    by_cases h : cur.length + line.length + 1 > k
    · rw [if_pos h, splitLoop_chunks_append]
      simp
    · rw [if_neg h, if_pos hcur]
      exact ih (cur ++ '\n' :: line) (by simp)

theorem splitLoop_joinSep (k : Nat) (rest : List Str) :
    ∀ cur : Str, cur ≠ [] → (∀ l ∈ rest, l ≠ []) →
      joinSep (splitLoop k rest [] cur) = joinSep (cur :: rest) := by
  induction rest with
  | nil =>
    intro cur hcur _
    rw [splitLoop_nil, if_pos hcur]
    rfl
  | cons line rest ih =>
    intro cur hcur hlines
    have hline : line ≠ [] := hlines line (by simp)
    have hrest : ∀ l ∈ rest, l ≠ [] := fun l hl => hlines l (by simp [hl])
    rw [splitLoop_cons]
    by_cases h : cur.length + line.length + 1 > k
    · rw [if_pos h, splitLoop_chunks_append]
      simp only [List.nil_append, List.singleton_append]
      rw [joinSep_cons cur _ (splitLoop_ne_nil k rest line hline),
        ih line hline hrest,
        joinSep_cons cur (line :: rest) (by simp)]
    · rw [if_neg h, if_pos hcur,
        ih (cur ++ '\n' :: line) (by simp) hrest]
      cases rest with
      | nil =>
        rw [joinSep_single, joinSep_cons cur [line] (by simp), joinSep_single]
      | cons r rs =>
        rw [joinSep_cons _ (r :: rs) (by simp),
          joinSep_cons cur (line :: r :: rs) (by simp),
          joinSep_cons line (r :: rs) (by simp)]
        simp

theorem splitLoop_mem (k : Nat) (rest : List Str) :
    ∀ (chunks : List Str) (cur c : Str), c ∈ splitLoop k rest chunks cur →
      c ∈ chunks ∨ c = cur ∨ c ∈ rest ∨ c.length ≤ k := by
  induction rest with
  | nil =>
    intro chunks cur c hc
    rw [splitLoop_nil] at hc
    by_cases h : cur = []
    · rw [if_neg (by simp [h])] at hc
      exact Or.inl hc
    · rw [if_pos h] at hc
      rcases List.mem_append.mp hc with h1 | h1
      · exact Or.inl h1
      · exact Or.inr (Or.inl (by simpa using h1))
  | cons line rest ih =>
    intro chunks cur c hc
    rw [splitLoop_cons] at hc
    by_cases h : cur.length + line.length + 1 > k
    · rw [if_pos h] at hc
      rcases ih _ _ _ hc with h1 | h1 | h1 | h1
      · rcases List.mem_append.mp h1 with h2 | h2
        · exact Or.inl h2
        · exact Or.inr (Or.inl (by simpa using h2))
      · exact Or.inr (Or.inr (Or.inl (by simp [h1])))
      · exact Or.inr (Or.inr (Or.inl (by simp [h1])))
      · exact Or.inr (Or.inr (Or.inr h1))
    · rw [if_neg h] at hc
      push_neg at h
      rcases ih _ _ _ hc with h1 | h1 | h1 | h1
      · exact Or.inl h1
      · right; right; right
        rw [h1]
        by_cases hcur : cur = []
        · rw [if_neg (by simp [hcur])]
          subst hcur
          simp at h
          omega
        · rw [if_pos hcur]
          simp only [List.length_append, List.length_cons]
          omega
      · exact Or.inr (Or.inr (Or.inl (by simp [h1])))
      · exact Or.inr (Or.inr (Or.inr h1))

theorem splitLoop_chunks_sub (k : Nat) (rest : List Str) :
    ∀ (chunks : List Str) (cur c : Str), c ∈ chunks → c ∈ splitLoop k rest chunks cur := by
  induction rest with
  | nil =>
    intro chunks cur c hc
    rw [splitLoop_nil]
    by_cases h : cur = []
    · rw [if_neg (by simp [h])]
      exact hc
    · rw [if_pos h]
      exact List.mem_append_left _ hc
  | cons line rest ih =>
    intro chunks cur c hc
    rw [splitLoop_cons]
    by_cases h : cur.length + line.length + 1 > k
    · rw [if_pos h]
      exact ih _ _ _ (List.mem_append_left _ hc)
    · rw [if_neg h]
      exact ih _ _ _ hc

theorem splitLoop_cur_mem (k : Nat) (rest : List Str) :
    ∀ (chunks : List Str) (cur : Str), k < cur.length → cur ∈ splitLoop k rest chunks cur := by
  induction rest with
  | nil =>
    intro chunks cur hk
    have hcur : cur ≠ [] := by
      intro h
      rw [h] at hk
      simp at hk
    rw [splitLoop_nil, if_pos hcur]
    exact List.mem_append_right _ (by simp)
  | cons line rest _ =>
    intro chunks cur hk
    rw [splitLoop_cons, if_pos (by omega)]
    exact splitLoop_chunks_sub k rest _ _ _ (List.mem_append_right _ (by simp))

theorem splitLoop_line_mem (k : Nat) (rest : List Str) :
    ∀ (chunks : List Str) (cur l : Str), l ∈ rest → k < l.length →
      l ∈ splitLoop k rest chunks cur := by
  induction rest with
  | nil =>
    intro _ _ _ h _
    simp at h
  | cons line rest ih =>
    intro chunks cur l hl hk
    rcases List.mem_cons.mp hl with h1 | h1
    · subst h1
      rw [splitLoop_cons, if_pos (by omega)]
      exact splitLoop_cur_mem k rest _ l hk
    · rw [splitLoop_cons]
      by_cases h : cur.length + line.length + 1 > k
      · rw [if_pos h]
        exact ih _ _ _ h1 hk
      · rw [if_neg h]
        exact ih _ _ _ h1 hk

theorem splitLoop_length (k : Nat) (rest : List Str) :
    ∀ (chunks : List Str) (cur : Str),
      (splitLoop k rest chunks cur).length ≤ chunks.length + rest.length + 1 := by
  induction rest with
  | nil =>
    intro chunks cur
    rw [splitLoop_nil]
    by_cases h : cur = []
    · rw [if_neg (by simp [h])]
      simp
    · rw [if_pos h]
      simp
  | cons line rest ih =>
    intro chunks cur
    rw [splitLoop_cons]
    by_cases h : cur.length + line.length + 1 > k
    · rw [if_pos h]
      have := ih (chunks ++ [cur]) line
      simp at this ⊢
      omega
    · rw [if_neg h]
      have := ih chunks (if cur ≠ [] then cur ++ '\n' :: line else line)
      simp at this ⊢
      omega

theorem splitLoop_chunks_run (k : Nat) (full : List Str) :
    ∀ (rest done : List Str), full = done ++ rest →
      ∀ (chunks : List Str) (cur : Str),
        (∀ c ∈ chunks, ∃ ls, ls <:+: full ∧ c = joinSep ls) →
        (∃ tl, tl <:+ done ∧ cur = joinSep tl) →
        ∀ c ∈ splitLoop k rest chunks cur, ∃ ls, ls <:+: full ∧ c = joinSep ls := by
  intro rest
  induction rest with
  | nil =>
    intro done hfull chunks cur hchunks hcur c hc
    rw [splitLoop_nil] at hc
    by_cases h : cur = []
    · rw [if_neg (by simp [h])] at hc
      exact hchunks c hc
    · rw [if_pos h] at hc
      rcases List.mem_append.mp hc with h1 | h1
      · exact hchunks c h1
      · obtain ⟨tl, ⟨p, hp⟩, hj⟩ := hcur
        have hceq : c = cur := by simpa using h1
        refine ⟨tl, ⟨p, [], ?_⟩, hceq.trans hj⟩
        rw [hfull, ← hp]
  | cons line rest ih =>
    intro done hfull chunks cur hchunks hcur c hc
    rw [splitLoop_cons] at hc
    have hfull2 : full = (done ++ [line]) ++ rest := by simp [hfull]
    by_cases h : cur.length + line.length + 1 > k
    · rw [if_pos h] at hc
      refine ih (done ++ [line]) hfull2 (chunks ++ [cur]) line ?_ ?_ c hc
      · intro c2 hc2
        rcases List.mem_append.mp hc2 with h1 | h1
        · exact hchunks c2 h1
        · obtain ⟨tl, ⟨p, hp⟩, hj⟩ := hcur
          have hceq : c2 = cur := by simpa using h1
          refine ⟨tl, ⟨p, line :: rest, ?_⟩, hceq.trans hj⟩
          rw [hfull, ← hp]
      · exact ⟨[line], ⟨done, rfl⟩, (joinSep_single line).symm⟩
    · rw [if_neg h] at hc
      by_cases hce : cur = []
      · rw [if_neg (by simp [hce])] at hc
        refine ih (done ++ [line]) hfull2 chunks line hchunks ?_ c hc
        exact ⟨[line], ⟨done, rfl⟩, (joinSep_single line).symm⟩
      · rw [if_pos hce] at hc
        obtain ⟨tl, ⟨p, hp⟩, hj⟩ := hcur
        refine ih (done ++ [line]) hfull2 chunks (cur ++ '\n' :: line) hchunks ?_ c hc
        have htl : tl ≠ [] := by
          intro he
          rw [he, joinSep_nil] at hj
          exact hce hj
        refine ⟨tl ++ [line], ⟨p, ?_⟩, ?_⟩
        · rw [← hp]
          simp
        · rw [joinSep_concat tl line htl, ← hj]

theorem splitLoop_eq_amended (k : Nat) (rest : List Str) :
    ∀ (chunks : List Str) (cur : Str),
      splitLoop k rest chunks cur = specLoopAmended k rest chunks cur := by
  induction rest with
  | nil =>
    intro chunks cur
    rfl
  | cons line rest ih =>
    intro chunks cur
    show (if cur.length + line.length + 1 > k then
        splitLoop k rest (chunks ++ [cur]) line
      else
        splitLoop k rest chunks (if cur ≠ [] then cur ++ '\n' :: line else line)) =
      (if cur.length + line.length + 1 > k then
        specLoopAmended k rest (chunks ++ [cur]) line
      else
        specLoopAmended k rest chunks (if cur ≠ [] then cur ++ '\n' :: line else line))
    by_cases h : cur.length + line.length + 1 > k
    · rw [if_pos h, if_pos h, ih]
    · rw [if_neg h, if_neg h, ih]

theorem split_response_repl :
    split_response (List.replicate 2000 'x') 1990 = [[], List.replicate 2000 'x'] := by
  have hm : '\n' ∉ List.replicate 2000 'x' := by
    intro h
    exact absurd (List.eq_of_mem_replicate h) (by decide)
  have hne : List.replicate 2000 'x' ≠ [] := by
    intro h
    have := congrArg List.length h
    simp only [List.length_replicate, List.length_nil] at this
    omega
  rw [split_response,
    if_neg (by simp only [List.length_replicate]; omega),
    splitLines_no_sep _ hm, splitLoop_cons,
    if_pos (by simp only [List.length_nil, List.length_replicate]; omega),
    splitLoop_nil, if_pos hne]
  simp only [List.nil_append, List.singleton_append]

/-! ### Claim theorems -/

/-- C1 counterexample: for the text "aaaa\nbb" and chunk_size 3 the code
returns ["", "aaaa", "bb"], whose join with the line separator is
"\naaaa\nbb", not the original text; the round-trip claim fails as
stated. -/
theorem C1_counterexample :
    joinSep (split_response ("aaaa\nbb".toList) 3) ≠ "aaaa\nbb".toList := by
  decide

/-- C1 (amended): for every positive chunk_size and every text in which no
line is empty and whose first line is shorter than chunk_size, joining the
sequence returned by split_response with the line separator reproduces the
original text exactly. -/
theorem C1_roundtrip_amended (t : Str) (k : Nat) (h0 : 0 < k)
    (hne : ∀ l ∈ splitLines t, l ≠ [])
    (hfst : (splitLines t).headI.length < k) :
    joinSep (split_response t k) = t := by
  rw [split_response]
  by_cases hlen : t.length ≤ k
  · rw [if_pos hlen, joinSep_single]
  · rw [if_neg hlen]
    obtain ⟨l0, ls, hsplit⟩ := List.exists_cons_of_ne_nil (splitLines_ne_nil t)
    have hl0 : l0.length < k := by
      rw [hsplit] at hfst
      simpa using hfst
    have hl0ne : l0 ≠ [] := hne l0 (by rw [hsplit]; simp)
    have hlsne : ∀ l ∈ ls, l ≠ [] := fun l hl => hne l (by rw [hsplit]; simp [hl])
    rw [hsplit, splitLoop_cons,
      if_neg (by simp only [List.length_nil]; omega),
      if_neg (by simp),
      splitLoop_joinSep k ls l0 hl0ne hlsne, ← hsplit, joinSep_splitLines]

/-- C1 witness: the amended round-trip at text "ab\ncd" with chunk_size 4
(the text is longer than the bound, so the accumulation loop runs). -/
theorem C1_roundtrip_amended_witness :
    joinSep (split_response ("ab\ncd".toList) 4) = "ab\ncd".toList :=
  C1_roundtrip_amended ("ab\ncd".toList) 4 (by decide) (by decide) (by decide)

/-- C2: every chunk returned by split_response that is not a single input
line whose own length exceeds chunk_size has length at most chunk_size. -/
theorem C2_bound (t : Str) (k : Nat) (h0 : 0 < k) (c : Str)
    (hc : c ∈ split_response t k)
    (hnot : ¬ (c ∈ splitLines t ∧ k < c.length)) : c.length ≤ k := by
  rw [split_response] at hc
  by_cases hlen : t.length ≤ k
  · rw [if_pos hlen] at hc
    have hct : c = t := by simpa using hc
    rw [hct]
    exact hlen
  · rw [if_neg hlen] at hc
    rcases splitLoop_mem k (splitLines t) [] [] c hc with h1 | h1 | h1 | h1
    · simp at h1
    · rw [h1]
      simp
    · by_cases h2 : k < c.length
      · exact absurd ⟨h1, h2⟩ hnot
      · omega
    · exact h1

/-- C2 witness: the chunk "a\nb" of split_response "a\nb\nc" 3 respects the
bound. -/
theorem C2_bound_witness : ("a\nb".toList).length ≤ 3 :=
  C2_bound ("a\nb\nc".toList) 3 (by decide) ("a\nb".toList) (by decide) (by decide)

/-- C3: for every text whose length is at most chunk_size, split_response
returns exactly the single-element sequence containing the text unchanged. -/
theorem C3_fast_path (t : Str) (k : Nat) (h0 : 0 < k) (h : t.length ≤ k) :
    split_response t k = [t] := by
  rw [split_response, if_pos h]

/-- C3 witness: in particular the empty text with the default bound 1990
yields the one-element sequence containing the empty string. -/
theorem C3_fast_path_witness : split_response [] 1990 = [[]] :=
  C3_fast_path [] 1990 (by decide) (by decide)

/-- C4: every line of the input whose length exceeds chunk_size appears in
the output of split_response verbatim as its own chunk. -/
theorem C4_overlong_line (t : Str) (k : Nat) (h0 : 0 < k) (l : Str)
    (hl : l ∈ splitLines t) (hlen : k < l.length) : l ∈ split_response t k := by
  have hlt : ¬ t.length ≤ k := by
    have := splitLines_length_le t l hl
    omega
  rw [split_response, if_neg hlt]
  exact splitLoop_line_mem k (splitLines t) [] [] l hl hlen

/-- C4 witness: the over-long line "aaaa" of "aaaa\nb" with chunk_size 3 is
a chunk of the output. -/
theorem C4_overlong_line_witness :
    "aaaa".toList ∈ split_response ("aaaa\nb".toList) 3 :=
  C4_overlong_line ("aaaa\nb".toList) 3 (by decide) ("aaaa".toList)
    (by decide) (by decide)

/-- C5 counterexample: on 2000 repetitions of 'x' with chunk_size 1990 the
code does not return the one-element sequence the claim states: it first
appends the empty initial buffer, returning ["", "x"*2000]. -/
theorem C5_counterexample :
    split_response (List.replicate 2000 'x') 1990 ≠ [List.replicate 2000 'x'] := by
  rw [split_response_repl]
  intro h
  have hl := congrArg List.length h
  simp only [List.length_cons, List.length_nil] at hl
  omega

/-- C5 (amended): split_response on 2000 repetitions of 'x' with chunk_size
1990 returns exactly the two-element sequence consisting of an empty first
chunk followed by the 2000-character line. -/
theorem C5_two_chunks :
    split_response (List.replicate 2000 'x') 1990 = [[], List.replicate 2000 'x'] :=
  split_response_repl

/-- C6 counterexample: the non-empty text "\n\n\n\n" with chunk_size 3
yields zero chunks, contradicting "an ordered sequence of one or more
non-empty strings" (and this input is not the empty-input exception). -/
theorem C6_counterexample :
    "\n\n\n\n".toList ≠ ([] : Str) ∧ split_response ("\n\n\n\n".toList) 3 = [] := by
  decide

/-- C6 (amended): every chunk returned by split_response equals a contiguous
run of original lines rejoined with the line separator; chunks may be empty,
and the returned sequence itself may have zero elements (when the text
exceeds the bound and consists solely of separators). -/
theorem C6_chunks_run (t : Str) (k : Nat) (h0 : 0 < k) (c : Str)
    (hc : c ∈ split_response t k) :
    ∃ ls, ls <:+: splitLines t ∧ c = joinSep ls := by
  rw [split_response] at hc
  by_cases hlen : t.length ≤ k
  · rw [if_pos hlen] at hc
    have hct : c = t := by simpa using hc
    exact ⟨splitLines t, ⟨[], [], by simp⟩, by rw [hct, joinSep_splitLines]⟩
  · rw [if_neg hlen] at hc
    exact splitLoop_chunks_run k (splitLines t) (splitLines t) [] (by simp) [] []
      (by simp) ⟨[], ⟨[], rfl⟩, joinSep_nil.symm⟩ c hc

/-- C6 witness: the chunk "a\nb" of split_response "a\nb\nc" 3 is a rejoined
contiguous run of the input lines. -/
theorem C6_chunks_run_witness :
    ∃ ls, ls <:+: splitLines ("a\nb\nc".toList) ∧ "a\nb".toList = joinSep ls :=
  C6_chunks_run ("a\nb\nc".toList) 3 (by decide) ("a\nb".toList) (by decide)

/-- C7 counterexample: at text "abc\nd" (length 5 > 3) with chunk_size 3 the
code output differs from the spec's reference algorithm, whose size check
counts the extra separator character only when the buffer is non-empty: the
code returns ["", "abc", "d"], the reference returns ["abc", "d"]. -/
theorem C7_counterexample :
    3 < ("abc\nd".toList).length ∧
      split_response ("abc\nd".toList) 3 ≠ spec_chunker ("abc\nd".toList) 3 := by
  decide

/-- C7 (amended): for every text longer than the positive chunk_size, the
code output equals the reference greedy algorithm whose size check always
counts one extra separator character, even when the buffer is empty. -/
theorem C7_refinement_amended (t : Str) (k : Nat) (h0 : 0 < k) (h : k < t.length) :
    split_response t k = spec_chunker_amended t k := by
  rw [split_response, if_neg (by omega), spec_chunker_amended, splitLoop_eq_amended]

/-- C7 witness: the amended refinement at text "abc\nd" with chunk_size 3. -/
theorem C7_refinement_amended_witness :
    split_response ("abc\nd".toList) 3 = spec_chunker_amended ("abc\nd".toList) 3 :=
  C7_refinement_amended ("abc\nd".toList) 3 (by decide) (by decide)

/-- C8: split_response "a\nb\nc" 3 returns exactly the two-element sequence
["a\nb", "c"]. -/
theorem C8_scenario :
    split_response ("a\nb\nc".toList) 3 = ["a\nb".toList, "c".toList] := by
  decide

/-- C9: split_response is total: for every text and every positive
chunk_size it returns a result, a sequence of at most (number of lines + 1)
chunks. -/
theorem C9_total (t : Str) (k : Nat) (h0 : 0 < k) :
    ∃ cs, split_response t k = cs ∧ cs.length ≤ (splitLines t).length + 1 := by
  refine ⟨split_response t k, rfl, ?_⟩
  rw [split_response]
  by_cases hlen : t.length ≤ k
  · rw [if_pos hlen]
    simp only [List.length_cons, List.length_nil]
    omega
  · rw [if_neg hlen]
    simpa using splitLoop_length k (splitLines t) [] []

/-- C9 witness: totality at the text "hello" with the default bound. -/
theorem C9_total_witness :
    ∃ cs, split_response ("hello".toList) 1990 = cs ∧
      cs.length ≤ (splitLines ("hello".toList)).length + 1 :=
  C9_total ("hello".toList) 1990 (by decide)

/-- C10: for every text longer than chunk_size whose first line has length
at least chunk_size, the first element of the sequence returned by
split_response is the empty string: the seal test counts a separator even
when the accumulating buffer is empty, and the initial empty buffer is
sealed into the output. -/
theorem C10_empty_first_chunk (t : Str) (k : Nat) (hlen : k < t.length)
    (hfst : k ≤ (splitLines t).headI.length) :
    (split_response t k).head? = some [] := by
  rw [split_response, if_neg (by omega)]
  obtain ⟨l0, ls, hsplit⟩ := List.exists_cons_of_ne_nil (splitLines_ne_nil t)
  have hl0 : k ≤ l0.length := by
    rw [hsplit] at hfst
    simpa using hfst
  rw [hsplit, splitLoop_cons,
    if_pos (by simp only [List.length_nil]; omega),
    splitLoop_chunks_append]
  simp

/-- C10 witness: at text "aaaa\nbb" with chunk_size 3 the first chunk is
empty. -/
theorem C10_empty_first_chunk_witness :
    (split_response ("aaaa\nbb".toList) 3).head? = some [] :=
  C10_empty_first_chunk ("aaaa\nbb".toList) 3 (by decide) (by decide)

end EVEFrontAIr
